import Mathlib

/-!
Shallow embedding of the line-mark interval-set engine of the `marks`
repository (`src/lib.rs`, duplicated in `src/main.rs`), together with
proofs about the claims of its specification.

Machine integers: the Rust code stores line offsets as `u16`.  The
embedding uses `Nat`; wherever u16 overflow matters in reachable code
(`line_offset + 1` in `remove` on `All`) the embedding takes the value
modulo 2^16, and the saturating operations (`saturating_sub`,
`saturating_add`) are modelled explicitly.  Fallible code (the spec-file
parser, whose errors abort the load, and `optimize`, whose presence-table
indexing can panic out of bounds) is modelled with `Except`/`Option`.
-/

namespace Marks

/-- Value of `u16::MAX` (65535), used by the source as the exclusive end of
the offset domain in `remove`-on-`All` and in `rebuild_partial_specs`. -/
def u16Max : Nat := 65535

/-- `SpecType` from `src/lib.rs`: a single 0-indexed line, or a half-open
0-indexed range `[l, r)`. -/
inductive SpecType where
  | Line : Nat → SpecType
  | Range : Nat → Nat → SpecType
deriving DecidableEq, Repr

/-- Whether one interval covers an offset; this is the guard of the two
match arms inside `match_line_offset` (`offset == line_offset` for `Line`,
`l <= line_offset && line_offset < r` for `Range`). -/
def SpecType.covers : SpecType → Nat → Bool
  | .Line o, x => decide (o = x)
  | .Range l r, x => decide (l ≤ x) && decide (x < r)

/-- `FileMarkSpec` from `src/lib.rs`: all lines marked, or a list of
intervals. -/
inductive FileMarkSpec where
  | All : FileMarkSpec
  | Partial : List SpecType → FileMarkSpec
deriving DecidableEq, Repr

/-- Membership of the interval list, as a Bool: true iff some interval of
the list covers the offset (the linear scan of `match_line_offset`). -/
def covSpec (specs : List SpecType) (x : Nat) : Bool :=
  specs.any (fun s => s.covers x)

/-- `FileMarkSpec::match_line_offset` from `src/lib.rs`. -/
def FileMarkSpec.match_line_offset : FileMarkSpec → Nat → Bool
  | .All, _ => true
  | .Partial specs, x => covSpec specs x

/-- `FileMarkSpec::add` from `src/lib.rs`: no-op on `All`, push a `Line`
on `Partial`. -/
def FileMarkSpec.add : FileMarkSpec → Nat → FileMarkSpec
  | .All, _ => .All
  | .Partial specs, x => .Partial (specs ++ [.Line x])

/-- The `Partial` branch of `FileMarkSpec::remove`: find the first interval
covering the offset and edit only it.  Replicates the source's branch
order: a width-one range becomes a `Line`, a range starting or ending at
the offset is shrunk, any other covering range is split in two. -/
def removeAux : List SpecType → Nat → List SpecType
  | [], _ => []
  | s :: rest, x =>
    if s.covers x then
      match s with
      | .Line _ => rest
      | .Range l r =>
        if r - l = 1 then .Line l :: rest
        else if l = x then .Range (l + 1) r :: rest
        else if r = x + 1 then .Range l (r - 1) :: rest
        else .Range l x :: .Range (x + 1) r :: rest
    else s :: removeAux rest x

/-- `FileMarkSpec::remove` from `src/lib.rs`.  On `All` the source builds
`Range(0, offset)` and `Range(offset + 1, u16::MAX)`; `offset + 1` is u16
arithmetic, hence the modulus. -/
def FileMarkSpec.remove : FileMarkSpec → Nat → FileMarkSpec
  | .All, x => .Partial [.Range 0 x, .Range ((x + 1) % 65536) u16Max]
  | .Partial specs, x => .Partial (removeAux specs x)

/-- Marking one interval into the presence table of
`rebuild_partial_specs`.  The table is `vec![false; u16::MAX as usize]`,
so it has indices `0 .. u16Max - 1`; writing index `u16Max` or beyond is
an out-of-bounds panic, modelled as `none`.  A `Range` iterates `l..r`,
so it panics iff that iteration reaches an index `≥ u16Max`, i.e. iff
`l < r ∧ u16Max < r`. -/
def markOne (f : Nat → Bool) : SpecType → Option (Nat → Bool)
  | .Line o =>
    if o < u16Max then some (fun x => if o = x then true else f x) else none
  | .Range l r =>
    if l < r ∧ u16Max < r then none
    else some (fun x => if decide (l ≤ x) && decide (x < r) then true else f x)

/-- The marking loop of `rebuild_partial_specs` over the whole interval
list. -/
def markAll : List SpecType → (Nat → Bool) → Option (Nat → Bool)
  | [], f => some f
  | s :: rest, f =>
    match markOne f s with
    | none => none
    | some g => markAll rest g

/-- Closing a run `[l, n)` in the scan of `rebuild_partial_specs`:
`Line(left)` for a width-one run, `Range(left, line_offset)` otherwise. -/
def emitRun (l n : Nat) : SpecType :=
  if n - l = 1 then .Line l else .Range l n

/-- The left-to-right scan of `rebuild_partial_specs` over the first `n`
entries of the presence table: returns the emitted intervals and the
pending `left_value`. -/
def runScan (p : Nat → Bool) : Nat → List SpecType × Option Nat
  | 0 => ([], none)
  | n + 1 =>
    let st := runScan p n
    match st.2 with
    | none => if p n then (st.1, some n) else (st.1, none)
    | some l => if p n then (st.1, some l) else (st.1 ++ [emitRun l n], none)

/-- The final `if let Some(left) = left_value` push of
`rebuild_partial_specs`: a run still open at the end of the table is
emitted as `Range(left, u16::MAX)`. -/
def closeScan (res : List SpecType) (left : Option Nat) : List SpecType :=
  match left with
  | none => res
  | some l => res ++ [.Range l u16Max]

/-- `FileMarkSpec::rebuild_partial_specs` from `src/lib.rs`: mark every
interval into the presence table (possible out-of-bounds panic, `none`),
then collect maximal runs. -/
def rebuild_partial_specs (specs : List SpecType) : Option (List SpecType) :=
  match markAll specs (fun _ => false) with
  | none => none
  | some p => some (closeScan (runScan p u16Max).1 (runScan p u16Max).2)

/-- `FileMarkSpec::optimize` from `src/lib.rs`: no-op on `All`, rebuild on
`Partial`. -/
def FileMarkSpec.optimize : FileMarkSpec → Option FileMarkSpec
  | .All => some .All
  | .Partial specs => (rebuild_partial_specs specs).map .Partial

/-! ## The codec (`parse_spec_file` / `write_spec_file`)

The parser works line by line on the contents of the spec file, exactly
as the Rust loop does: `read_line` appends the next raw line (newline
included) to the buffer `buf`, the parsed view `line` is `buf` with
trailing newlines trimmed, and — crucially — `buf` is cleared only after
a directive is successfully parsed, not on the blank-line or comment
`continue` paths.

The two module patterns are suffix-anchored searches:
`NUM_REGEX = \s*(\d+)\s*$` and `RANGE_REGEX = \s*(\d+)\s*-\s*(\d+)\s*$`.
With Rust's leftmost-first semantics a `captures` call against these
patterns is determined by the end of the line: strip trailing whitespace,
the last capture is the maximal trailing digit run (empty run means no
match); for the range pattern the text before that run must, after
optional whitespace, end in `-`, itself preceded after optional
whitespace by the maximal digit run that becomes the first capture.  The
digit run is maximal and no earlier alternative match exists because the
character preceding a captured run can be matched by neither `\s*` nor
the literal `-` if it is a digit. -/

/-- Whitespace of the regex class `\s` restricted to ASCII (space, tab,
newline, carriage return, vertical tab, form feed). -/
def wsChar (c : Char) : Bool :=
  c == ' ' || c == '\t' || c == '\n' || c == '\r' || c == '\x0b' || c == '\x0c'

/-- Decimal digit character for a value below ten (the shape of digits
produced by Rust's integer `Display`). -/
def digitChar : Nat → Char
  | 0 => '0' | 1 => '1' | 2 => '2' | 3 => '3' | 4 => '4'
  | 5 => '5' | 6 => '6' | 7 => '7' | 8 => '8' | 9 => '9'
  | _ => '*'

/-- Big-endian decimal digits of `n`, with fuel for structural recursion
(fuel `n + 1` always suffices: the printed value shrinks by a factor of
ten per step). -/
def natDigitsCore : Nat → Nat → List Char → List Char
  | 0, _, acc => acc
  | fuel + 1, n, acc =>
    if n < 10 then digitChar n :: acc
    else natDigitsCore fuel (n / 10) (digitChar (n % 10) :: acc)

/-- Decimal rendering of a `Nat`, modelling `format!("{}", n)`. -/
def natDigits (n : Nat) : List Char := natDigitsCore (n + 1) n []

/-- Numeric value of one digit character. -/
def dval (c : Char) : Nat := c.toNat - 48

/-- Value of a big-endian digit string. -/
def digitsToNat (ds : List Char) : Nat :=
  ds.foldl (fun a c => a * 10 + dval c) 0

/-- `str::parse::<u16>` on a captured (hence nonempty, all-digit) string:
the value, or an error beyond `u16::MAX` — the parse error propagates and
aborts the spec load. -/
def parseU16 (ds : List Char) : Option Nat :=
  if digitsToNat ds ≤ u16Max then some (digitsToNat ds) else none

/-- `u16::saturating_add(1)` used by `write_spec_file` when shifting
0-indexed offsets back to the 1-indexed file form. -/
def satAdd1 (n : Nat) : Nat := if n + 1 ≤ u16Max then n + 1 else u16Max

/-- The magic marker `-*- all -*-` from `src/lib.rs`. -/
def ALL_MAGIC : List Char := "-*- all -*-".toList

/-- Substring containment (`str::contains` with a string pattern). -/
def containsSeq (needle hay : List Char) : Bool :=
  (List.range (hay.length + 1)).any (fun i => needle.isPrefixOf (hay.drop i))

/-- The maximal digit run that ends a line once trailing whitespace is
stripped — the last capture group of both regexes. -/
def trailingDigits (s : List Char) : List Char :=
  (s.rdropWhile wsChar).rtakeWhile Char.isDigit

/-- Capture of `NUM_REGEX` (`\s*(\d+)\s*$`) against a line: the maximal
trailing digit run after stripping trailing whitespace, if nonempty. -/
def numCapture (s : List Char) : Option (List Char) :=
  if (trailingDigits s).isEmpty then none else some (trailingDigits s)

/-- What precedes the trailing digit run of a line, with whitespace
between stripped: for `RANGE_REGEX` to match this must end in `-`. -/
def beforeCapture (s : List Char) : List Char :=
  ((s.rdropWhile wsChar).take
      ((s.rdropWhile wsChar).length - (trailingDigits s).length)).rdropWhile
    wsChar

/-- Captures of `RANGE_REGEX` (`\s*(\d+)\s*-\s*(\d+)\s*$`) against a
line: the trailing digit run, preceded (through optional whitespace) by a
literal `-`, preceded (through optional whitespace) by the first digit
run. -/
def rangeCapture (s : List Char) : Option (List Char × List Char) :=
  if (trailingDigits s).isEmpty then none
  else
    match (beforeCapture s).getLast? with
    | some '-' =>
      if (trailingDigits
            ((beforeCapture s).take ((beforeCapture s).length - 1))).isEmpty
      then none
      else
        some
          (trailingDigits
            ((beforeCapture s).take ((beforeCapture s).length - 1)),
            trailingDigits s)
    | _ => none

/-- Split file contents into the raw lines `read_line` returns: each
chunk keeps its trailing newline; a final chunk without a newline is
returned as is; at end of file `read_line` returns 0 and the loop
stops. -/
def splitLinesAux (cur : List Char) : List Char → List (List Char)
  | [] => if cur.isEmpty then [] else [cur.reverse]
  | c :: rest =>
    if c = '\n' then (c :: cur).reverse :: splitLinesAux [] rest
    else splitLinesAux (c :: cur) rest

/-- Raw lines of a file's contents. -/
def splitLines (content : List Char) : List (List Char) :=
  splitLinesAux [] content

/-- Outcome of one iteration of the `parse_spec_file` loop for the
current trimmed view of the buffer. -/
inductive LineStep where
  | skip : LineStep
  | allMagic : LineStep
  | directive : SpecType → LineStep
  | fail : LineStep

/-- The regex cascade of the `parse_spec_file` loop: try the range regex
before the number regex, converting 1-indexed numbers with
`saturating_sub(1)`; a line matching neither regex, or a number beyond
`u16::MAX`, is a fatal error. -/
def classifyTail (line : List Char) : LineStep :=
  match rangeCapture line with
  | some (d1, d2) =>
    match parseU16 d1, parseU16 d2 with
    | some a, some b => .directive (.Range (a - 1) (b - 1))
    | _, _ => .fail
  | none =>
    match numCapture line with
    | some d =>
      match parseU16 d with
      | some n => .directive (.Line (n - 1))
      | none => .fail
    | none => .fail

/-- The body of the `parse_spec_file` loop on the trimmed line: skip
blank and `#` lines, stop on the magic marker, otherwise run the regex
cascade. -/
def classifyLine (line : List Char) : LineStep :=
  if line.isEmpty then .skip
  else if line.head? = some '#' then .skip
  else if containsSeq ALL_MAGIC line then .allMagic
  else classifyTail line

/-- The loop of `parse_spec_file` over the remaining raw lines, carrying
the read buffer `buf` — appended to by every `read_line`, trimmed of
trailing newlines for inspection, but cleared only after a successful
directive — and the directives accumulated so far. -/
def parse_lines (buf : List Char) (specs : List SpecType) :
    List (List Char) → Except Unit FileMarkSpec
  | [] => .ok (.Partial specs)
  | l :: rest =>
    match classifyLine ((buf ++ l).rdropWhile (fun c => decide (c = '\n'))) with
    | .skip => parse_lines (buf ++ l) specs rest
    | .allMagic => .ok .All
    | .directive s => parse_lines [] (specs ++ [s]) rest
    | .fail => .error ()

/-- `parse_spec_file` from `src/lib.rs`, over the file's contents.
`N.saturating_sub(1)` is `Nat` subtraction. -/
def parse_spec_file (content : List Char) : Except Unit FileMarkSpec :=
  parse_lines [] [] (splitLines content)

/-- The line (without its newline) that `write_spec_file` emits for one
interval: `{offset+1}` for a `Line`, `{l+1}-{r+1}` for a `Range`, all
bounds shifted with `saturating_add`. -/
def writeLine (s : SpecType) : List Char :=
  match s with
  | .Line o => natDigits (satAdd1 o)
  | .Range l r => natDigits (satAdd1 l) ++ '-' :: natDigits (satAdd1 r)

/-- `write_spec_file` from `src/lib.rs`: the magic marker for `All`, one
line per interval for `Partial`. -/
def write_spec_file (spec : FileMarkSpec) : List Char :=
  match spec with
  | .All => ALL_MAGIC ++ ['\n']
  | .Partial specs => (specs.map (fun s => writeLine s ++ ['\n'])).flatten

/-- `file_status` from `src/lib.rs`, abstracted over the parsed spec and
the number of lines of the source file: the loop increments `line_no`
first and only then tests `spec.match_line_offset(line_no)`.  Returns
`(marked, line_no)`. -/
def file_status (spec : FileMarkSpec) (lines : Nat) : Nat × Nat :=
  (List.range lines).foldl
    (fun st _ =>
      let line_no := st.2 + 1
      (if spec.match_line_offset line_no then st.1 + 1 else st.1, line_no))
    (0, 0)

/-! ## Derived predicates and the edit-operation language used by the
claims -/

/-- A mutation of the edit session: the three in-place operations the
program applies to a loaded spec. -/
inductive MarkOp where
  | add : Nat → MarkOp
  | remove : Nat → MarkOp
  | optimize : MarkOp

/-- One edit step; `optimize` can fail (presence-table panic). -/
def applyOp (s : FileMarkSpec) : MarkOp → Option FileMarkSpec
  | .add o => some (s.add o)
  | .remove o => some (s.remove o)
  | .optimize => s.optimize

/-- A whole sequence of edit steps. -/
def applyOps (s : FileMarkSpec) : List MarkOp → Option FileMarkSpec
  | [] => some s
  | op :: ops =>
    match applyOp s op with
    | none => none
    | some s2 => applyOps s2 ops

/-- The `l ≤ r` well-formedness of a single interval claimed by the
spec's data model. -/
def rangeWF (s : SpecType) : Bool :=
  match s with
  | .Line _ => true
  | .Range l r => decide (l ≤ r)

/-- Well-formedness of a whole spec: every `Range` has `l ≤ r`. -/
def specWF : FileMarkSpec → Bool
  | .All => true
  | .Partial specs => specs.all rangeWF

/-- A width-one `Range` covering the offset — the case in which `remove`
keeps the offset marked by turning `Range(l, l+1)` into `Line(l)`. -/
def unitRangeAt (s : SpecType) (o : Nat) : Bool :=
  match s with
  | .Line _ => false
  | .Range l r => s.covers o && decide (r = l + 1)

/-- An interval the presence table of `rebuild_partial_specs` can absorb
without an out-of-bounds write: `Line` offsets strictly below `u16Max`,
`Range`s not reaching past `u16Max` (every u16 `Range` qualifies). -/
def specOkB (s : SpecType) : Bool :=
  match s with
  | .Line o => decide (o < u16Max)
  | .Range _ r => decide (r ≤ u16Max)

/-- A raw spec-file line that is not blank, not a comment, and not the
magic marker (after trimming trailing newlines as the parser does). -/
def goodLineB (l : List Char) : Bool :=
  let t := l.rdropWhile (fun c => decide (c = '\n'))
  !t.isEmpty && !(decide (t.head? = some '#')) && !containsSeq ALL_MAGIC t

/-- A raw line on which both regexes fail: its content, stripped of
trailing whitespace, does not end in a digit. -/
def failLineB (l : List Char) : Bool :=
  (numCapture (l.rdropWhile (fun c => decide (c = '\n')))).isNone

/-- An interval on which `markOne` cannot fail (the exact complement of
its `none` branches). -/
def markOneOk (s : SpecType) : Bool :=
  match s with
  | .Line o => decide (o < u16Max)
  | .Range l r => !(decide (l < r) && decide (u16Max < r))

/-- An interval whose written line re-parses to the identical interval:
both saturating `+1` shifts must stay below the saturation point. -/
def writeB (s : SpecType) : Bool :=
  match s with
  | .Line o => decide (o < u16Max)
  | .Range l r => decide (l < u16Max) && decide (r < u16Max)

/-- Structural bound on an interval emitted by the scan: it lies strictly
before position `m` and ranges are nonempty. -/
def specEnd (s : SpecType) (m : Nat) : Prop :=
  match s with
  | .Line o => o < m
  | .Range l r => l < r ∧ r < m

/-- The ten decimal digit characters. -/
def DIGITS : List Char := ['0', '1', '2', '3', '4', '5', '6', '7', '8', '9']

/-! ## Helper lemmas: coverage and the scan of `rebuild_partial_specs` -/

theorem covSpec_nil (x : Nat) : covSpec [] x = false := rfl

theorem covSpec_cons (s : SpecType) (specs : List SpecType) (x : Nat) :
    covSpec (s :: specs) x = (s.covers x || covSpec specs x) := by
  simp [covSpec]

theorem covSpec_append (xs ys : List SpecType) (x : Nat) :
    covSpec (xs ++ ys) x = (covSpec xs x || covSpec ys x) := by
  simp [covSpec]

theorem specEnd_mono {s : SpecType} {m n : Nat} (h : specEnd s m) (hmn : m ≤ n) :
    specEnd s n := by
  cases s with
  | Line o => exact Nat.lt_of_lt_of_le h hmn
  | Range l r => exact ⟨h.1, Nat.lt_of_lt_of_le h.2 hmn⟩

theorem covers_eq_false_of_specEnd {s : SpecType} {m x : Nat} (h : specEnd s m)
    (hx : m ≤ x) : s.covers x = false := by
  cases s with
  | Line o =>
    simp only [specEnd] at h
    simp only [SpecType.covers, decide_eq_false_iff_not]
    omega
  | Range l r =>
    simp only [specEnd] at h
    simp only [SpecType.covers, Bool.and_eq_false_iff, decide_eq_false_iff_not]
    omega

theorem covers_emitRun {l n : Nat} (h : l < n) (x : Nat) :
    (emitRun l n).covers x = (decide (l ≤ x) && decide (x < n)) := by
  unfold emitRun
  by_cases h1 : n - l = 1
  · have hn : n = l + 1 := by omega
    subst hn
    simp only [if_pos h1, SpecType.covers]
    by_cases hlx : l = x
    · subst hlx; simp
    · rw [decide_eq_false hlx]
      symm
      simp only [Bool.and_eq_false_iff, decide_eq_false_iff_not]
      omega
  · simp only [if_neg h1, SpecType.covers]

theorem specEnd_emitRun {l n : Nat} (h : l < n) : specEnd (emitRun l n) (n + 1) := by
  unfold emitRun
  by_cases h1 : n - l = 1
  · simp only [if_pos h1, specEnd]; omega
  · simp only [if_neg h1, specEnd]; omega

theorem runScan_zero (p : Nat → Bool) : runScan p 0 = ([], none) := rfl

theorem runScan_succ (p : Nat → Bool) (n : Nat) :
    runScan p (n + 1) =
      match (runScan p n).2 with
      | none =>
        if p n then ((runScan p n).1, some n) else ((runScan p n).1, none)
      | some l =>
        if p n then ((runScan p n).1, some l)
        else ((runScan p n).1 ++ [emitRun l n], none) := rfl

theorem runScan_congr {p q : Nat → Bool} :
    ∀ n, (∀ x, x < n → p x = q x) → runScan p n = runScan q n := by
  intro n
  induction n with
  | zero => intro _; rfl
  | succ n ih =>
    intro h
    have hn := ih (fun x hx => h x (Nat.lt_succ_of_lt hx))
    rw [runScan_succ, runScan_succ, hn, h n (Nat.lt_succ_self n)]

theorem runScan_ext_false {p : Nat → Bool} {m : Nat} {res : List SpecType}
    (h : runScan p m = (res, none)) :
    ∀ n, m ≤ n → (∀ x, m ≤ x → x < n → p x = false) → runScan p n = (res, none) := by
  intro n hmn
  induction n, hmn using Nat.le_induction with
  | base => intro _; exact h
  | succ n hmn ih =>
    intro hf
    have h1 : runScan p n = (res, none) :=
      ih (fun x hx1 hx2 => hf x hx1 (Nat.lt_succ_of_lt hx2))
    rw [runScan_succ, h1]
    simp [hf n hmn (Nat.lt_succ_self n)]

theorem runScan_ext_true {p : Nat → Bool} {m l : Nat} {res : List SpecType}
    (h : runScan p m = (res, some l)) :
    ∀ n, m ≤ n → (∀ x, m ≤ x → x < n → p x = true) → runScan p n = (res, some l) := by
  intro n hmn
  induction n, hmn using Nat.le_induction with
  | base => intro _; exact h
  | succ n hmn ih =>
    intro hf
    have h1 : runScan p n = (res, some l) :=
      ih (fun x hx1 hx2 => hf x hx1 (Nat.lt_succ_of_lt hx2))
    rw [runScan_succ, h1]
    simp [hf n hmn (Nat.lt_succ_self n)]

/-- Invariant of the left-to-right scan: with no pending run, the emitted
intervals lie strictly inside `[0, n)` and cover exactly the true entries
below `n`; with a pending run started at `l`, the emitted intervals lie
strictly inside `[0, l)`, cover exactly the true entries below `l`, and
the table is constantly true on `[l, n)`. -/
theorem runScan_inv (p : Nat → Bool) :
    ∀ n,
      ((runScan p n).2 = none →
        (∀ s ∈ (runScan p n).1, specEnd s n) ∧
          (∀ x, x < n → covSpec (runScan p n).1 x = p x) ∧
            (∀ x, n ≤ x → covSpec (runScan p n).1 x = false)) ∧
        (∀ l, (runScan p n).2 = some l →
          l < n ∧ (∀ s ∈ (runScan p n).1, specEnd s l) ∧
            (∀ x, x < l → covSpec (runScan p n).1 x = p x) ∧
              (∀ x, l ≤ x → covSpec (runScan p n).1 x = false) ∧
                (∀ x, l ≤ x → x < n → p x = true)) := by
  intro n
  induction n with
  | zero =>
    constructor
    · intro _
      refine ⟨by simp [runScan], fun x hx => absurd hx (Nat.not_lt_zero x), fun x _ => rfl⟩
    · intro l hl
      simp [runScan] at hl
  | succ n ih =>
    rcases hst : runScan p n with ⟨res, left⟩
    rw [hst] at ih
    cases left with
    | none =>
      obtain ⟨hbnd, hcov, hout⟩ := ih.1 rfl
      by_cases hp : p n
      · have hrun : runScan p (n + 1) = (res, some n) := by
          rw [runScan_succ, hst]; simp [hp]
        rw [hrun]
        constructor
        · intro h; simp at h
        · intro l hl
          simp only [Option.some.injEq] at hl
          subst hl
          refine ⟨Nat.lt_succ_self n, hbnd, hcov, hout, ?_⟩
          intro x hx1 hx2
          have hxe : x = n := by omega
          subst hxe
          exact hp
      · have hrun : runScan p (n + 1) = (res, none) := by
          rw [runScan_succ, hst]; simp [hp]
        rw [hrun]
        constructor
        · intro _
          refine ⟨fun s hs => specEnd_mono (hbnd s hs) (Nat.le_succ n), ?_, ?_⟩
          · intro x hx
            by_cases hxn : x < n
            · exact hcov x hxn
            · have hxe : x = n := by omega
              rw [hxe, hout n (Nat.le_refl n)]
              exact (Bool.eq_false_iff.mpr hp).symm
          · intro x hx
            exact hout x (by omega)
        · intro l hl; simp at hl
    | some l0 =>
      obtain ⟨hl0, hbnd, hcov, hout, htrue⟩ := ih.2 l0 rfl
      by_cases hp : p n
      · have hrun : runScan p (n + 1) = (res, some l0) := by
          rw [runScan_succ, hst]; simp [hp]
        rw [hrun]
        constructor
        · intro h; simp at h
        · intro l hl
          simp only [Option.some.injEq] at hl
          subst hl
          refine ⟨Nat.lt_succ_of_lt hl0, hbnd, hcov, hout, ?_⟩
          intro x hx1 hx2
          by_cases hxn : x < n
          · exact htrue x hx1 hxn
          · have : x = n := by omega
            subst this; exact hp
      · have hrun : runScan p (n + 1) = (res ++ [emitRun l0 n], none) := by
          rw [runScan_succ, hst]; simp [hp]
        rw [hrun]
        constructor
        · intro _
          refine ⟨?_, ?_, ?_⟩
          · intro s hs
            rcases List.mem_append.mp hs with h | h
            · exact specEnd_mono (hbnd s h) (by omega)
            · rcases List.mem_singleton.mp h with rfl
              exact specEnd_emitRun hl0
          · intro x hx
            rw [covSpec_append]
            by_cases hxl : x < l0
            · rw [hcov x hxl]
              have : covSpec [emitRun l0 n] x = false := by
                simp [covSpec, covers_emitRun hl0]; omega
              rw [this, Bool.or_false]
            · rw [hout x (by omega)]
              simp only [covSpec, List.any_cons, List.any_nil, Bool.or_false,
                covers_emitRun hl0, Bool.false_or]
              by_cases hxn : x < n
              · have := htrue x (by omega) hxn
                rw [this]
                simp; omega
              · have hxeq : x = n := by omega
                subst hxeq
                rw [Bool.eq_false_iff.mpr hp]
                simp
          · intro x hx
            rw [covSpec_append]
            rw [hout x (by omega)]
            have : covSpec [emitRun l0 n] x = false := by
              simp [covSpec, covers_emitRun hl0]; omega
            rw [this]
            rfl
        · intro l hl; simp at hl

/-! ## Helper lemmas: marking and `rebuild_partial_specs` -/

theorem covSpec_true_of_mem {s : SpecType} {specs : List SpecType} {x : Nat}
    (h1 : s ∈ specs) (h2 : s.covers x = true) : covSpec specs x = true := by
  simp only [covSpec, List.any_eq_true]
  exact ⟨s, h1, h2⟩

theorem markOne_some_eval {f : Nat → Bool} {s : SpecType} {g : Nat → Bool}
    (h : markOne f s = some g) : ∀ x, g x = (s.covers x || f x) := by
  cases s with
  | Line o =>
    simp only [markOne] at h
    by_cases ho : o < u16Max
    · rw [if_pos ho] at h
      obtain rfl := Option.some.inj h
      intro x
      by_cases hox : o = x
      · subst hox; simp [SpecType.covers]
      · simp [SpecType.covers, hox]
    · rw [if_neg ho] at h; cases h
  | Range l r =>
    simp only [markOne] at h
    by_cases hc : l < r ∧ u16Max < r
    · rw [if_pos hc] at h; cases h
    · rw [if_neg hc] at h
      obtain rfl := Option.some.inj h
      intro x
      cases hb : (decide (l ≤ x) && decide (x < r)) <;>
        simp [SpecType.covers, hb]

theorem markAll_some_eval :
    ∀ (specs : List SpecType) (f g : Nat → Bool), markAll specs f = some g →
      ∀ x, g x = (covSpec specs x || f x) := by
  intro specs
  induction specs with
  | nil =>
    intro f g h x
    obtain rfl := Option.some.inj h
    simp [covSpec]
  | cons s rest ih =>
    intro f g h x
    simp only [markAll] at h
    cases hm : markOne f s with
    | none => rw [hm] at h; cases h
    | some g1 =>
      rw [hm] at h
      rw [ih g1 g h x, markOne_some_eval hm x, covSpec_cons]
      cases s.covers x <;> cases covSpec rest x <;> cases f x <;> rfl

theorem markAll_isSome :
    ∀ (specs : List SpecType) (f : Nat → Bool),
      (∀ s ∈ specs, markOneOk s = true) → ∃ g, markAll specs f = some g := by
  intro specs
  induction specs with
  | nil => intro f _; exact ⟨f, rfl⟩
  | cons s rest ih =>
    intro f hok
    have hs := hok s (List.mem_cons_self s rest)
    have hr : ∀ t ∈ rest, markOneOk t = true :=
      fun t ht => hok t (List.mem_cons_of_mem s ht)
    cases s with
    | Line o =>
      simp only [markOneOk, decide_eq_true_eq] at hs
      obtain ⟨g, hg⟩ := ih (fun x => if o = x then true else f x) hr
      exact ⟨g, by simp only [markAll, markOne, if_pos hs]; exact hg⟩
    | Range l r =>
      simp only [markOneOk, Bool.not_eq_eq_eq_not, Bool.not_true,
        Bool.and_eq_false_iff, decide_eq_false_iff_not] at hs
      have hc : ¬(l < r ∧ u16Max < r) := by
        rcases hs with h | h
        · exact fun hx => h hx.1
        · exact fun hx => h hx.2
      obtain ⟨g, hg⟩ :=
        ih (fun x => if decide (l ≤ x) && decide (x < r) then true else f x) hr
      exact ⟨g, by simp only [markAll, markOne, if_neg hc]; exact hg⟩

theorem rebuild_eq_some {specs out : List SpecType}
    (h : rebuild_partial_specs specs = some out) :
    ∃ p, markAll specs (fun _ => false) = some p ∧
      out = closeScan (runScan p u16Max).1 (runScan p u16Max).2 := by
  unfold rebuild_partial_specs at h
  cases hm : markAll specs (fun _ => false) with
  | none => rw [hm] at h; cases h
  | some p => rw [hm] at h; exact ⟨p, rfl, (Option.some.inj h).symm⟩

/-- Structural and semantic properties of a successful rebuild: every
emitted interval is safely markable (`markOneOk`), well-formed (`l ≤ r`
for ranges, in fact `l < r`), and the output covers exactly the offsets
the input covered, over the table's domain `[0, u16Max)`. -/
theorem rebuild_props {specs out : List SpecType}
    (h : rebuild_partial_specs specs = some out) :
    (∀ s ∈ out, markOneOk s = true) ∧ (∀ s ∈ out, rangeWF s = true) ∧
      (∀ x, x < u16Max → covSpec out x = covSpec specs x) := by
  obtain ⟨p, hm, hout⟩ := rebuild_eq_some h
  have hp : ∀ x, p x = covSpec specs x := by
    intro x
    rw [markAll_some_eval specs _ p hm x, Bool.or_false]
  rcases hscan : runScan p u16Max with ⟨res, left⟩
  have hinv := runScan_inv p u16Max
  rw [hscan] at hinv hout
  cases left with
  | none =>
    obtain ⟨hbnd, hcov, _⟩ := hinv.1 rfl
    simp only [closeScan] at hout
    subst hout
    refine ⟨?_, ?_, ?_⟩
    · intro s hs
      have := hbnd s hs
      cases s with
      | Line o => simp only [specEnd] at this; simp [markOneOk]; omega
      | Range l r => simp only [specEnd] at this; simp [markOneOk]; omega
    · intro s hs
      have := hbnd s hs
      cases s with
      | Line _ => rfl
      | Range l r => simp only [specEnd] at this; simp [rangeWF]; omega
    · intro x hx
      rw [hcov x hx, hp x]
  | some l0 =>
    obtain ⟨hl0, hbnd, hcov, hout0, htrue⟩ := hinv.2 l0 rfl
    simp only [closeScan] at hout
    subst hout
    refine ⟨?_, ?_, ?_⟩
    · intro s hs
      rcases List.mem_append.mp hs with hs | hs
      · have := hbnd s hs
        cases s with
        | Line o => simp only [specEnd] at this; simp [markOneOk]; omega
        | Range l r => simp only [specEnd] at this; simp [markOneOk]; omega
      · rcases List.mem_singleton.mp hs with rfl
        simp [markOneOk]
    · intro s hs
      rcases List.mem_append.mp hs with hs | hs
      · have := hbnd s hs
        cases s with
        | Line _ => rfl
        | Range l r => simp only [specEnd] at this; simp [rangeWF]; omega
      · rcases List.mem_singleton.mp hs with rfl
        simp [rangeWF]; omega
    · intro x hx
      rw [covSpec_append, ← hp x]
      have hone : covSpec [SpecType.Range l0 u16Max] x = decide (l0 ≤ x) := by
        simp only [covSpec, List.any_cons, List.any_nil, Bool.or_false,
          SpecType.covers]
        by_cases hxl : l0 ≤ x
        · simp [hxl]; omega
        · simp [hxl]
      rw [hone]
      by_cases hxl : x < l0
      · rw [hcov x hxl]
        have : decide (l0 ≤ x) = false := by simp; omega
        rw [this, Bool.or_false]
      · rw [hout0 x (by omega)]
        have h1 : decide (l0 ≤ x) = true := by simp; omega
        rw [h1, htrue x (by omega) hx]
        rfl

/-- A successful rebuild whose output does not cover `u16Max - 1` ended
with no pending run, so every emitted interval lies strictly below
`u16Max` and survives the write/parse round trip unchanged. -/
theorem rebuild_strict {specs out : List SpecType}
    (h : rebuild_partial_specs specs = some out)
    (hnc : covSpec out (u16Max - 1) = false) :
    ∀ s ∈ out, writeB s = true := by
  obtain ⟨p, hm, hout⟩ := rebuild_eq_some h
  rcases hscan : runScan p u16Max with ⟨res, left⟩
  have hinv := runScan_inv p u16Max
  rw [hscan] at hinv hout
  cases left with
  | none =>
    obtain ⟨hbnd, _, _⟩ := hinv.1 rfl
    simp only [closeScan] at hout
    subst hout
    intro s hs
    have := hbnd s hs
    cases s with
    | Line o => simp only [specEnd] at this; simp [writeB]; omega
    | Range l r => simp only [specEnd] at this; simp [writeB]; omega
  | some l0 =>
    obtain ⟨hl0, _, _, _, _⟩ := hinv.2 l0 rfl
    simp only [closeScan] at hout
    subst hout
    exfalso
    have hmem : SpecType.Range l0 u16Max ∈ res ++ [SpecType.Range l0 u16Max] :=
      List.mem_append_right res (List.mem_singleton.mpr rfl)
    have hcv : (SpecType.Range l0 u16Max).covers (u16Max - 1) = true := by
      simp only [SpecType.covers, Bool.and_eq_true, decide_eq_true_eq]
      constructor <;> [omega; omega]
    rw [covSpec_true_of_mem hmem hcv] at hnc
    cases hnc

/-- Core of the idempotence claim: a successful rebuild is a fixed point
of rebuilding. -/
theorem rebuild_idem {specs out : List SpecType}
    (h : rebuild_partial_specs specs = some out) :
    rebuild_partial_specs out = some out := by
  obtain ⟨hok, _, _⟩ := rebuild_props h
  obtain ⟨p, hm, hout⟩ := rebuild_eq_some h
  have hp : ∀ x, p x = covSpec specs x := by
    intro x
    rw [markAll_some_eval specs _ p hm x, Bool.or_false]
  obtain ⟨q, hq⟩ := markAll_isSome out (fun _ => false) hok
  have hqx : ∀ x, q x = covSpec out x := by
    intro x
    rw [markAll_some_eval out _ q hq x, Bool.or_false]
  have hcov := (rebuild_props h).2.2
  have hcongr : runScan q u16Max = runScan p u16Max := by
    apply runScan_congr
    intro x hx
    rw [hqx x, hcov x hx, hp x]
  unfold rebuild_partial_specs
  rw [hq]
  show some (closeScan (runScan q u16Max).1 (runScan q u16Max).2) = some out
  rw [hcongr, ← hout]

/-- Rebuild succeeds on any interval list whose entries fit the presence
table, and the result covers the same offsets over the table's domain. -/
theorem rebuild_isSome {specs : List SpecType}
    (hok : ∀ s ∈ specs, specOkB s = true) :
    ∃ out, rebuild_partial_specs specs = some out ∧
      ∀ x, x < u16Max → covSpec out x = covSpec specs x := by
  have hok2 : ∀ s ∈ specs, markOneOk s = true := by
    intro s hs
    have := hok s hs
    cases s with
    | Line o => exact this
    | Range l r =>
      simp only [specOkB, decide_eq_true_eq] at this
      simp only [markOneOk, Bool.not_eq_eq_eq_not, Bool.not_true,
        Bool.and_eq_false_iff, decide_eq_false_iff_not]
      right; omega
  obtain ⟨p, hp⟩ := markAll_isSome specs (fun _ => false) hok2
  have hre : rebuild_partial_specs specs =
      some (closeScan (runScan p u16Max).1 (runScan p u16Max).2) := by
    unfold rebuild_partial_specs
    rw [hp]
  exact ⟨_, hre, (rebuild_props hre).2.2⟩

/-! ## Helper lemmas: `remove` -/

theorem removeAux_covers_false :
    ∀ (specs : List SpecType) (o : Nat),
      specs.countP (fun s => s.covers o) = 1 →
      (∀ s ∈ specs, unitRangeAt s o = false) →
      covSpec (removeAux specs o) o = false := by
  intro specs
  induction specs with
  | nil => intro o _ _; rfl
  | cons s rest ih =>
    intro o h1 h2
    by_cases hc : s.covers o = true
    · have hrest : rest.countP (fun s => s.covers o) = 0 := by
        rw [List.countP_cons] at h1
        simp only [hc, if_true] at h1
        omega
      have hrestcov : covSpec rest o = false := by
        simp only [covSpec, List.any_eq_false]
        intro t ht
        exact (List.countP_eq_zero.mp hrest) t ht
      cases s with
      | Line a =>
        simp only [removeAux, if_pos hc]
        exact hrestcov
      | Range l r =>
        have hlr : l ≤ o ∧ o < r := by
          simpa [SpecType.covers] using hc
        have hunit := h2 _ (List.mem_cons_self _ rest)
        simp only [unitRangeAt, hc, Bool.true_and, decide_eq_false_iff_not] at hunit
        have hrl : ¬(r - l = 1) := by omega
        simp only [removeAux, if_pos hc, if_neg hrl]
        by_cases he1 : l = o
        · rw [if_pos he1, covSpec_cons, hrestcov]
          have hcv : (SpecType.Range (l + 1) r).covers o = false := by
            simp only [SpecType.covers, Bool.and_eq_false_iff,
              decide_eq_false_iff_not]
            omega
          rw [hcv]; rfl
        · rw [if_neg he1]
          by_cases he2 : r = o + 1
          · rw [if_pos he2, covSpec_cons, hrestcov]
            have hcv : (SpecType.Range l (r - 1)).covers o = false := by
              simp only [SpecType.covers, Bool.and_eq_false_iff,
                decide_eq_false_iff_not]
              omega
            rw [hcv]; rfl
          · rw [if_neg he2, covSpec_cons, covSpec_cons, hrestcov]
            have hA : (SpecType.Range l o).covers o = false := by
              simp only [SpecType.covers, Bool.and_eq_false_iff,
                decide_eq_false_iff_not]
              omega
            have hB : (SpecType.Range (o + 1) r).covers o = false := by
              simp only [SpecType.covers, Bool.and_eq_false_iff,
                decide_eq_false_iff_not]
              omega
            rw [hA, hB]; rfl
    · have hc' : s.covers o = false := Bool.eq_false_iff.mpr hc
      simp only [removeAux, if_neg hc]
      rw [covSpec_cons, hc', Bool.false_or]
      refine ih o ?_ ?_
      · rw [List.countP_cons] at h1
        simp only [hc'] at h1
        simpa using h1
      · exact fun t ht => h2 t (List.mem_cons_of_mem s ht)

theorem removeAux_wf :
    ∀ (specs : List SpecType) (o : Nat),
      (∀ s ∈ specs, rangeWF s = true) →
      ∀ s ∈ removeAux specs o, rangeWF s = true := by
  intro specs
  induction specs with
  | nil => intro o _ s hs; cases hs
  | cons s rest ih =>
    intro o hwf t ht
    have hrest : ∀ u ∈ rest, rangeWF u = true :=
      fun u hu => hwf u (List.mem_cons_of_mem s hu)
    by_cases hc : s.covers o = true
    · cases s with
      | Line a =>
        simp only [removeAux, if_pos hc] at ht
        exact hrest t ht
      | Range l r =>
        have hlr : l ≤ o ∧ o < r := by
          simpa [SpecType.covers] using hc
        simp only [removeAux, if_pos hc] at ht
        by_cases hrl : r - l = 1
        · rw [if_pos hrl] at ht
          rcases List.mem_cons.mp ht with rfl | ht
          · rfl
          · exact hrest t ht
        · rw [if_neg hrl] at ht
          by_cases he1 : l = o
          · rw [if_pos he1] at ht
            rcases List.mem_cons.mp ht with rfl | ht
            · simp [rangeWF]; omega
            · exact hrest t ht
          · rw [if_neg he1] at ht
            by_cases he2 : r = o + 1
            · rw [if_pos he2] at ht
              rcases List.mem_cons.mp ht with rfl | ht
              · simp [rangeWF]; omega
              · exact hrest t ht
            · rw [if_neg he2] at ht
              rcases List.mem_cons.mp ht with rfl | ht
              · simp [rangeWF]; omega
              · rcases List.mem_cons.mp ht with rfl | ht
                · simp [rangeWF]; omega
                · exact hrest t ht
    · simp only [removeAux, if_neg hc] at ht
      rcases List.mem_cons.mp ht with rfl | ht
      · exact hwf t (List.mem_cons_self t rest)
      · exact ih o hrest t ht

/-! ## Helper lemmas: well-formedness through the edit operations -/

theorem specWF_add {S : FileMarkSpec} {o : Nat} (h : specWF S = true) :
    specWF (S.add o) = true := by
  cases S with
  | All => rfl
  | Partial specs =>
    simp only [FileMarkSpec.add, specWF, List.all_append, List.all_cons,
      List.all_nil, Bool.and_true]
    simp only [specWF] at h
    rw [h]
    rfl

theorem specWF_remove {S : FileMarkSpec} {o : Nat} (h : specWF S = true) :
    specWF (S.remove o) = true := by
  cases S with
  | All =>
    simp only [FileMarkSpec.remove, specWF, List.all_cons, List.all_nil,
      Bool.and_true, rangeWF, Bool.and_eq_true, decide_eq_true_eq]
    have : (o + 1) % 65536 < 65536 := Nat.mod_lt _ (by norm_num)
    refine ⟨by omega, by simp [u16Max]; omega⟩
  | Partial specs =>
    simp only [specWF] at h
    simp only [FileMarkSpec.remove, specWF, List.all_eq_true]
    exact removeAux_wf specs o (fun s hs => List.all_eq_true.mp h s hs)

theorem specWF_optimize {S S' : FileMarkSpec} (h : S.optimize = some S') :
    specWF S' = true := by
  cases S with
  | All =>
    obtain rfl := Option.some.inj h
    rfl
  | Partial specs =>
    simp only [FileMarkSpec.optimize] at h
    cases hre : rebuild_partial_specs specs with
    | none => rw [hre] at h; cases h
    | some out =>
      rw [hre] at h
      obtain rfl := Option.some.inj h
      simp only [specWF, List.all_eq_true]
      exact (rebuild_props hre).2.1

theorem applyOps_wf :
    ∀ (ops : List MarkOp) (S S' : FileMarkSpec), specWF S = true →
      applyOps S ops = some S' → specWF S' = true := by
  intro ops
  induction ops with
  | nil =>
    intro S S' h heq
    obtain rfl := Option.some.inj heq
    exact h
  | cons op rest ih =>
    intro S S' h heq
    simp only [applyOps] at heq
    cases hop : applyOp S op with
    | none => rw [hop] at heq; cases heq
    | some S2 =>
      rw [hop] at heq
      refine ih S2 S' ?_ heq
      cases op with
      | add o =>
        obtain rfl := Option.some.inj hop
        exact specWF_add h
      | remove o =>
        obtain rfl := Option.some.inj hop
        exact specWF_remove h
      | optimize => exact specWF_optimize hop

/-! ## Helper lemmas: decimal digits -/

theorem digitChar_mem_DIGITS {d : Nat} (h : d < 10) : digitChar d ∈ DIGITS := by
  interval_cases d <;> decide

theorem DIGITS_props :
    ∀ c ∈ DIGITS,
      c.isDigit = true ∧ wsChar c = false ∧ c ≠ '\n' ∧ c ≠ '#' ∧ c ≠ '*' := by
  decide

theorem natDigitsCore_acc :
    ∀ (fuel n : Nat) (acc : List Char),
      natDigitsCore fuel n acc = natDigitsCore fuel n [] ++ acc := by
  intro fuel
  induction fuel with
  | zero => intro n acc; rfl
  | succ fuel ih =>
    intro n acc
    simp only [natDigitsCore]
    by_cases h : n < 10
    · rw [if_pos h, if_pos h]; rfl
    · rw [if_neg h, if_neg h, ih (n / 10) (digitChar (n % 10) :: acc),
        ih (n / 10) [digitChar (n % 10)]]
      simp

theorem natDigitsCore_mem :
    ∀ (fuel n : Nat) (acc : List Char) (c : Char),
      c ∈ natDigitsCore fuel n acc → c ∈ acc ∨ c ∈ DIGITS := by
  intro fuel
  induction fuel with
  | zero => intro n acc c h; exact Or.inl h
  | succ fuel ih =>
    intro n acc c h
    simp only [natDigitsCore] at h
    by_cases hn : n < 10
    · rw [if_pos hn] at h
      rcases List.mem_cons.mp h with rfl | h
      · exact Or.inr (digitChar_mem_DIGITS hn)
      · exact Or.inl h
    · rw [if_neg hn] at h
      rcases ih (n / 10) _ c h with h | h
      · rcases List.mem_cons.mp h with rfl | h
        · exact Or.inr (digitChar_mem_DIGITS (Nat.mod_lt n (by norm_num)))
        · exact Or.inl h
      · exact Or.inr h

theorem natDigits_mem {n : Nat} {c : Char} (h : c ∈ natDigits n) : c ∈ DIGITS := by
  rcases natDigitsCore_mem (n + 1) n [] c h with h | h
  · cases h
  · exact h

theorem natDigits_ne_nil (n : Nat) : natDigits n ≠ [] := by
  show natDigitsCore (n + 1) n [] ≠ []
  simp only [natDigitsCore]
  by_cases h : n < 10
  · rw [if_pos h]; exact List.cons_ne_nil _ _
  · rw [if_neg h, natDigitsCore_acc]
    intro heq
    have hlen := congrArg List.length heq
    simp at hlen

theorem digitsToNat_append_singleton (ds : List Char) (c : Char) :
    digitsToNat (ds ++ [c]) = digitsToNat ds * 10 + dval c := by
  simp only [digitsToNat, List.foldl_append, List.foldl_cons, List.foldl_nil]

theorem dval_digitChar {d : Nat} (h : d < 10) : dval (digitChar d) = d := by
  interval_cases d <;> decide

theorem digitsToNat_core :
    ∀ (fuel : Nat), ∀ n < fuel, digitsToNat (natDigitsCore fuel n []) = n := by
  intro fuel
  induction fuel with
  | zero => intro n h; omega
  | succ fuel ih =>
    intro n hn
    simp only [natDigitsCore]
    by_cases h : n < 10
    · rw [if_pos h]
      simp only [digitsToNat, List.foldl_cons, List.foldl_nil]
      rw [Nat.zero_mul, Nat.zero_add, dval_digitChar h]
    · rw [if_neg h, natDigitsCore_acc, digitsToNat_append_singleton,
        ih (n / 10) (by omega), dval_digitChar (Nat.mod_lt n (by norm_num))]
      omega

theorem digitsToNat_natDigits (n : Nat) : digitsToNat (natDigits n) = n :=
  digitsToNat_core (n + 1) n (Nat.lt_succ_self n)

theorem parseU16_natDigits {n : Nat} (h : n ≤ u16Max) :
    parseU16 (natDigits n) = some n := by
  unfold parseU16
  rw [digitsToNat_natDigits, if_pos h]

/-! ## Helper lemmas: trailing-anchored capture functions -/

theorem isEmpty_false_of_ne_nil {α : Type} {l : List α} (h : l ≠ []) :
    l.isEmpty = false := by
  cases l with
  | nil => cases h rfl
  | cons a as => rfl

theorem rdropWhile_eq_self {α : Type} {p : α → Bool} {l : List α}
    (h : ∀ c ∈ l, p c = false) : l.rdropWhile p = l := by
  apply List.rdropWhile_eq_self_iff.mpr
  intro hne
  rw [h _ (List.getLast_mem hne)]
  simp

theorem rtakeWhile_eq_self {α : Type} {p : α → Bool} {l : List α}
    (h : ∀ c ∈ l, p c = true) : l.rtakeWhile p = l :=
  List.rtakeWhile_eq_self_iff.mpr h

theorem rtakeWhile_append_last_false {α : Type} {p : α → Bool}
    (xs : List α) (c : α) (ys : List α) (hc : p c = false)
    (hys : ∀ y ∈ ys, p y = true) : (xs ++ c :: ys).rtakeWhile p = ys := by
  induction ys using List.reverseRecOn with
  | nil =>
    rw [show xs ++ c :: ([] : List α) = xs ++ [c] from rfl]
    exact List.rtakeWhile_concat_neg p xs c (by rw [hc]; simp)
  | append_singleton ys y ih =>
    have hy : p y = true := hys y (by simp)
    rw [show xs ++ c :: (ys ++ [y]) = (xs ++ c :: ys) ++ [y] by simp,
      List.rtakeWhile_concat_pos p _ y hy,
      ih (fun z hz => hys z (by simp [hz]))]

theorem trailingDigits_all_digits {D : List Char}
    (hd : ∀ c ∈ D, c.isDigit = true) (hw : ∀ c ∈ D, wsChar c = false) :
    trailingDigits D = D := by
  unfold trailingDigits
  rw [rdropWhile_eq_self hw, rtakeWhile_eq_self hd]

theorem numCapture_all_digits {D : List Char} (hne : D ≠ [])
    (hd : ∀ c ∈ D, c.isDigit = true) (hw : ∀ c ∈ D, wsChar c = false) :
    numCapture D = some D := by
  unfold numCapture
  rw [trailingDigits_all_digits hd hw, isEmpty_false_of_ne_nil hne]
  rfl

theorem rangeCapture_all_digits {D : List Char}
    (hd : ∀ c ∈ D, c.isDigit = true) (hw : ∀ c ∈ D, wsChar c = false) :
    rangeCapture D = none := by
  by_cases hD : D = []
  · subst hD; rfl
  · have hbc : beforeCapture D = [] := by
      unfold beforeCapture
      rw [rdropWhile_eq_self hw, trailingDigits_all_digits hd hw,
        Nat.sub_self, List.take_zero, List.rdropWhile_nil]
    unfold rangeCapture
    rw [trailingDigits_all_digits hd hw, isEmpty_false_of_ne_nil hD, hbc]
    rfl

theorem trailingDigits_pair {D1 D2 : List Char}
    (hd2 : ∀ c ∈ D2, c.isDigit = true)
    (hwAll : ∀ c ∈ D1 ++ '-' :: D2, wsChar c = false) :
    trailingDigits (D1 ++ '-' :: D2) = D2 := by
  unfold trailingDigits
  rw [rdropWhile_eq_self hwAll,
    rtakeWhile_append_last_false D1 '-' D2 (by decide) hd2]

theorem beforeCapture_pair {D1 D2 : List Char}
    (hd2 : ∀ c ∈ D2, c.isDigit = true)
    (hwAll : ∀ c ∈ D1 ++ '-' :: D2, wsChar c = false)
    (hwDash : ∀ c ∈ D1 ++ ['-'], wsChar c = false) :
    beforeCapture (D1 ++ '-' :: D2) = D1 ++ ['-'] := by
  unfold beforeCapture
  rw [rdropWhile_eq_self hwAll, trailingDigits_pair hd2 hwAll]
  rw [show D1 ++ '-' :: D2 = (D1 ++ ['-']) ++ D2 by simp]
  rw [show ((D1 ++ ['-']) ++ D2).length - D2.length = (D1 ++ ['-']).length by
    simp; omega]
  rw [List.take_left]
  exact rdropWhile_eq_self hwDash

theorem rangeCapture_pair {D1 D2 : List Char} (h1 : D1 ≠ []) (h2 : D2 ≠ [])
    (hd1 : ∀ c ∈ D1, c.isDigit = true) (hd2 : ∀ c ∈ D2, c.isDigit = true)
    (hw1 : ∀ c ∈ D1, wsChar c = false) (hw2 : ∀ c ∈ D2, wsChar c = false) :
    rangeCapture (D1 ++ '-' :: D2) = some (D1, D2) := by
  have hwAll : ∀ c ∈ D1 ++ '-' :: D2, wsChar c = false := by
    intro c hc
    rcases List.mem_append.mp hc with h | h
    · exact hw1 c h
    · rcases List.mem_cons.mp h with rfl | h
      · decide
      · exact hw2 c h
  have hwDash : ∀ c ∈ D1 ++ ['-'], wsChar c = false := by
    intro c hc
    rcases List.mem_append.mp hc with h | h
    · exact hw1 c h
    · rcases List.mem_singleton.mp h with rfl
      decide
  have htake2 : (D1 ++ ['-']).take ((D1 ++ ['-']).length - 1) = D1 := by
    rw [show (D1 ++ ['-']).length - 1 = D1.length by simp]
    exact List.take_left _ _
  unfold rangeCapture
  rw [trailingDigits_pair hd2 hwAll, isEmpty_false_of_ne_nil h2,
    beforeCapture_pair hd2 hwAll hwDash, List.getLast?_concat, htake2,
    trailingDigits_all_digits hd1 hw1, isEmpty_false_of_ne_nil h1]
  rfl

theorem rangeCapture_none_of_numCapture_none {s : List Char}
    (h : numCapture s = none) : rangeCapture s = none := by
  unfold numCapture at h
  unfold rangeCapture
  by_cases hE : (trailingDigits s).isEmpty
  · rw [if_pos hE]
  · rw [if_neg hE] at h
    cases h

theorem containsSeq_false_of_no_star {hay : List Char}
    (h : ∀ c ∈ hay, c ≠ '*') : containsSeq ALL_MAGIC hay = false := by
  by_contra hcon
  rw [Bool.not_eq_false] at hcon
  simp only [containsSeq, List.any_eq_true] at hcon
  obtain ⟨i, _, hpre⟩ := hcon
  have hp : ALL_MAGIC <+: hay.drop i := List.isPrefixOf_iff_prefix.mp hpre
  have hstar : '*' ∈ ALL_MAGIC := by decide
  exact h '*' (List.drop_subset i hay (hp.subset hstar)) rfl

/-! ## Helper lemmas: splitting file contents into raw lines -/

theorem splitLinesAux_line :
    ∀ (body cur rest : List Char), (∀ c ∈ body, c ≠ '\n') →
      splitLinesAux cur (body ++ '\n' :: rest) =
        (cur.reverse ++ (body ++ ['\n'])) :: splitLinesAux [] rest := by
  intro body
  induction body with
  | nil =>
    intro cur rest _
    simp [splitLinesAux]
  | cons c body ih =>
    intro cur rest h
    have hc : c ≠ '\n' := h c (List.mem_cons_self c body)
    simp only [List.cons_append, splitLinesAux, if_neg hc, List.append_eq]
    rw [ih (c :: cur) rest (fun d hd => h d (List.mem_cons_of_mem c hd)),
      List.reverse_cons]
    simp

theorem splitLines_flatten :
    ∀ (ls : List (List Char)), (∀ l ∈ ls, ∀ c ∈ l, c ≠ '\n') →
      splitLines ((ls.map (fun l => l ++ ['\n'])).flatten) =
        ls.map (fun l => l ++ ['\n']) := by
  intro ls
  induction ls with
  | nil => intro _; rfl
  | cons l ls ih =>
    intro h
    have h1 := h l (List.mem_cons_self l ls)
    have ihh := ih (fun t ht => h t (List.mem_cons_of_mem l ht))
    unfold splitLines at ihh ⊢
    simp only [List.map_cons, List.flatten_cons]
    rw [show (l ++ ['\n']) ++ (ls.map (fun t => t ++ ['\n'])).flatten =
        l ++ '\n' :: (ls.map (fun t => t ++ ['\n'])).flatten by simp,
      splitLinesAux_line l [] _ h1, ihh]
    simp

theorem rdropWhile_body_newline {body : List Char} (h : ∀ c ∈ body, c ≠ '\n') :
    (body ++ ['\n']).rdropWhile (fun c => decide (c = '\n')) = body := by
  rw [List.rdropWhile_concat_pos _ _ _ (by simp)]
  exact rdropWhile_eq_self (fun c hc => by simp [h c hc])

/-! ## Helper lemmas: parsing what `write_spec_file` produced -/

theorem writeLine_mem {s : SpecType} {c : Char} (h : c ∈ writeLine s) :
    c ∈ DIGITS ∨ c = '-' := by
  cases s with
  | Line o => exact Or.inl (natDigits_mem h)
  | Range l r =>
    simp only [writeLine] at h
    rcases List.mem_append.mp h with h | h
    · exact Or.inl (natDigits_mem h)
    · rcases List.mem_cons.mp h with rfl | h
      · exact Or.inr rfl
      · exact Or.inl (natDigits_mem h)

theorem writeLine_no_newline {s : SpecType} : ∀ c ∈ writeLine s, c ≠ '\n' := by
  intro c hc
  rcases writeLine_mem hc with h | rfl
  · exact (DIGITS_props c h).2.2.1
  · decide

theorem writeLine_no_star {s : SpecType} : ∀ c ∈ writeLine s, c ≠ '*' := by
  intro c hc
  rcases writeLine_mem hc with h | rfl
  · exact (DIGITS_props c h).2.2.2.2
  · decide

theorem satAdd1_le (n : Nat) : satAdd1 n ≤ u16Max := by
  unfold satAdd1
  by_cases h : n + 1 ≤ u16Max
  · rw [if_pos h]; exact h
  · rw [if_neg h]

theorem satAdd1_of_lt {n : Nat} (h : n < u16Max) : satAdd1 n = n + 1 := by
  unfold satAdd1
  rw [if_pos (by omega)]

theorem head_digit_not_hash {D : List Char} (hne : D ≠ [])
    (hd : ∀ c ∈ D, c.isDigit = true) (rest : List Char) :
    ¬((D ++ rest).head? = some '#') := by
  cases D with
  | nil => cases hne rfl
  | cons c cs =>
    intro hcon
    simp only [List.cons_append, List.head?_cons, Option.some.injEq] at hcon
    subst hcon
    have := hd '#' (List.mem_cons_self _ _)
    simp [Char.isDigit] at this

/-- The written line of an interval that fits strictly inside the u16
domain re-parses to exactly that interval. -/
theorem classifyLine_writeLine {s : SpecType} (hw : writeB s = true) :
    classifyLine (writeLine s) = .directive s := by
  cases s with
  | Line o =>
    simp only [writeB, decide_eq_true_eq] at hw
    have hd : ∀ c ∈ natDigits (satAdd1 o), c.isDigit = true :=
      fun c hc => (DIGITS_props c (natDigits_mem hc)).1
    have hws : ∀ c ∈ natDigits (satAdd1 o), wsChar c = false :=
      fun c hc => (DIGITS_props c (natDigits_mem hc)).2.1
    have hne := natDigits_ne_nil (satAdd1 o)
    unfold classifyLine writeLine
    rw [isEmpty_false_of_ne_nil hne]
    simp only [Bool.false_eq_true, if_false]
    rw [if_neg (by
      have := head_digit_not_hash hne hd []
      simpa using this)]
    rw [if_neg (by
      rw [containsSeq_false_of_no_star
        (fun c hc => (DIGITS_props c (natDigits_mem hc)).2.2.2.2)]
      simp)]
    unfold classifyTail
    rw [rangeCapture_all_digits hd hws, numCapture_all_digits hne hd hws,
      satAdd1_of_lt hw]
    simp [parseU16_natDigits (show o + 1 ≤ u16Max by omega)]
  | Range l r =>
    simp only [writeB, Bool.and_eq_true, decide_eq_true_eq] at hw
    have hd1 : ∀ c ∈ natDigits (satAdd1 l), c.isDigit = true :=
      fun c hc => (DIGITS_props c (natDigits_mem hc)).1
    have hw1 : ∀ c ∈ natDigits (satAdd1 l), wsChar c = false :=
      fun c hc => (DIGITS_props c (natDigits_mem hc)).2.1
    have hd2 : ∀ c ∈ natDigits (satAdd1 r), c.isDigit = true :=
      fun c hc => (DIGITS_props c (natDigits_mem hc)).1
    have hw2 : ∀ c ∈ natDigits (satAdd1 r), wsChar c = false :=
      fun c hc => (DIGITS_props c (natDigits_mem hc)).2.1
    have hne1 := natDigits_ne_nil (satAdd1 l)
    have hne2 := natDigits_ne_nil (satAdd1 r)
    unfold classifyLine writeLine
    rw [isEmpty_false_of_ne_nil (by simp [hne1])]
    simp only [Bool.false_eq_true, if_false]
    rw [if_neg (head_digit_not_hash hne1 hd1 _)]
    rw [if_neg (by
      rw [containsSeq_false_of_no_star (by
        intro c hc
        exact writeLine_no_star (s := SpecType.Range l r) c
          (by simpa [writeLine] using hc))]
      simp)]
    unfold classifyTail
    rw [rangeCapture_pair hne1 hne2 hd1 hd2 hw1 hw2, satAdd1_of_lt hw.1,
      satAdd1_of_lt hw.2]
    simp [parseU16_natDigits (show l + 1 ≤ u16Max by omega),
      parseU16_natDigits (show r + 1 ≤ u16Max by omega)]

theorem parse_lines_written :
    ∀ (specs acc : List SpecType), (∀ s ∈ specs, writeB s = true) →
      parse_lines [] acc (specs.map (fun s => writeLine s ++ ['\n'])) =
        .ok (.Partial (acc ++ specs)) := by
  intro specs
  induction specs with
  | nil => intro acc _; simp [parse_lines]
  | cons s rest ih =>
    intro acc hw
    have hws := hw s (List.mem_cons_self s rest)
    simp only [List.map_cons, parse_lines, List.nil_append]
    rw [rdropWhile_body_newline writeLine_no_newline,
      classifyLine_writeLine hws]
    show parse_lines [] (acc ++ [s]) (rest.map (fun t => writeLine t ++ ['\n'])) =
      Except.ok (FileMarkSpec.Partial (acc ++ s :: rest))
    rw [ih (acc ++ [s]) (fun t ht => hw t (List.mem_cons_of_mem s ht))]
    simp

/-! ## Helper lemmas: fatal parse failures -/

theorem classifyTail_eval_range {t : List Char} {d1 d2 : List Char}
    (h : rangeCapture t = some (d1, d2)) :
    classifyTail t =
      match parseU16 d1, parseU16 d2 with
      | some a, some b => .directive (.Range (a - 1) (b - 1))
      | _, _ => .fail := by
  unfold classifyTail
  rw [h]

theorem classifyTail_eval_num {t : List Char} (h : rangeCapture t = none) :
    classifyTail t =
      match numCapture t with
      | some d =>
        match parseU16 d with
        | some n => .directive (.Line (n - 1))
        | none => .fail
      | none => .fail := by
  unfold classifyTail
  rw [h]

theorem classifyTail_eval_num_some {t d : List Char}
    (h1 : rangeCapture t = none) (h2 : numCapture t = some d) :
    classifyTail t =
      match parseU16 d with
      | some n => .directive (.Line (n - 1))
      | none => .fail := by
  unfold classifyTail
  rw [h1, h2]

theorem classifyTail_cases (t : List Char) :
    classifyTail t = .fail ∨ ∃ s, classifyTail t = .directive s := by
  cases hrc : rangeCapture t with
  | some pair =>
    obtain ⟨d1, d2⟩ := pair
    rw [classifyTail_eval_range hrc]
    cases parseU16 d1 with
    | none => exact Or.inl rfl
    | some a =>
      cases parseU16 d2 with
      | none => exact Or.inl rfl
      | some b => exact Or.inr ⟨_, rfl⟩
  | none =>
    cases hnc : numCapture t with
    | none =>
      left
      unfold classifyTail
      rw [hrc, hnc]
    | some d =>
      rw [classifyTail_eval_num_some hrc hnc]
      cases parseU16 d with
      | none => exact Or.inl rfl
      | some n => exact Or.inr ⟨_, rfl⟩

theorem parse_lines_fail :
    ∀ (lines : List (List Char)) (acc : List SpecType),
      (∀ l ∈ lines, goodLineB l = true) → lines.any failLineB = true →
      parse_lines [] acc lines = .error () := by
  intro lines
  induction lines with
  | nil => intro acc _ h2; simp at h2
  | cons l rest ih =>
    intro acc h1 h2
    have hg := h1 l (List.mem_cons_self l rest)
    simp only [goodLineB, Bool.and_eq_true, Bool.not_eq_eq_eq_not,
      Bool.not_true] at hg
    obtain ⟨⟨hne, hhash⟩, hmagic⟩ := hg
    have h1r : ∀ t ∈ rest, goodLineB t = true :=
      fun t ht => h1 t (List.mem_cons_of_mem l ht)
    simp only [parse_lines, List.nil_append]
    unfold classifyLine
    rw [hne]
    simp only [Bool.false_eq_true, if_false]
    rw [if_neg (by simpa using hhash), if_neg (by rw [hmagic]; simp)]
    by_cases hf : failLineB l = true
    · have hnc : numCapture (l.rdropWhile (fun c => decide (c = '\n'))) =
          none := by
        simpa [failLineB, Option.isNone_iff_eq_none] using hf
      have hcl : classifyTail (l.rdropWhile (fun c => decide (c = '\n'))) =
          .fail := by
        unfold classifyTail
        rw [rangeCapture_none_of_numCapture_none hnc, hnc]
      rw [hcl]
    · have h2r : rest.any failLineB = true := by
        rcases List.any_eq_true.mp h2 with ⟨t, ht, htf⟩
        rcases List.mem_cons.mp ht with rfl | ht
        · exact absurd htf hf
        · exact List.any_eq_true.mpr ⟨t, ht, htf⟩
      rcases classifyTail_cases (l.rdropWhile (fun c => decide (c = '\n')))
        with hcl | ⟨s, hcl⟩
      · rw [hcl]
      · rw [hcl]
        exact ih _ h1r h2r

/-! ## Shared concrete evaluations -/

theorem runScan_step_none_true {p : Nat → Bool} {m : Nat}
    {res : List SpecType} (h : runScan p m = (res, none)) (hp : p m = true) :
    runScan p (m + 1) = (res, some m) := by
  rw [runScan_succ, h, hp]
  rfl

theorem runScan_step_some_true {p : Nat → Bool} {m l : Nat}
    {res : List SpecType} (h : runScan p m = (res, some l))
    (hp : p m = true) : runScan p (m + 1) = (res, some l) := by
  rw [runScan_succ, h, hp]
  rfl

theorem runScan_step_some_false {p : Nat → Bool} {m l : Nat}
    {res : List SpecType} (h : runScan p m = (res, some l))
    (hp : p m = false) :
    runScan p (m + 1) = (res ++ [emitRun l m], none) := by
  rw [runScan_succ, h, hp]
  rfl

theorem rebuild_eval {specs : List SpecType} {p : Nat → Bool}
    (hm : markAll specs (fun _ => false) = some p) :
    rebuild_partial_specs specs =
      some (closeScan (runScan p u16Max).1 (runScan p u16Max).2) := by
  unfold rebuild_partial_specs
  rw [hm]

/-- Rebuilding the one-interval list `[Line 0]` succeeds and is the
identity: the scan opens a run at offset 0 and closes it at offset 1 as a
width-one `Line`. -/
theorem rebuild_singleton_line0 :
    rebuild_partial_specs [SpecType.Line 0] = some [SpecType.Line 0] := by
  have hm : markAll [SpecType.Line 0] (fun _ => false) =
      some (fun x => if 0 = x then true else false) := rfl
  have h1 : runScan (fun x => if 0 = x then true else false) (0 + 1) =
      ([], some 0) := runScan_step_none_true (runScan_zero _) rfl
  have h2 : runScan (fun x => if 0 = x then true else false) (0 + 1 + 1) =
      ([] ++ [emitRun 0 (0 + 1)], none) :=
    runScan_step_some_false h1 rfl
  rw [show ([] ++ [emitRun 0 (0 + 1)] : List SpecType) = [SpecType.Line 0]
    from rfl] at h2
  have h3 : runScan (fun x => if 0 = x then true else false) u16Max =
      ([SpecType.Line 0], none) := by
    refine runScan_ext_false h2 u16Max (by decide) ?_
    intro x hx _
    rw [if_neg (by omega)]
  rw [rebuild_eval hm, h3]
  rfl

/-! ## The claims -/

/-- C1: the claim fails on the code (code bug).  The read buffer is
cleared only after a successful directive, so after the comment line of
`"# reviewed\n3\n10-15\n"` the directive lines are appended to the
still-buffered comment text, the combined line keeps starting with `#`,
and everything is skipped: parsing yields `Partial([])` — for which
`matches(2)` is false — instead of the specified
`Partial([Line(2), Range(9,14)])`, which does match 2. -/
theorem c1_comment_swallows_directives :
    parse_spec_file ("# reviewed\n3\n10-15\n".toList) = .ok (.Partial []) ∧
      (FileMarkSpec.Partial []).match_line_offset 2 = false ∧
        (FileMarkSpec.Partial
            [SpecType.Line 2, SpecType.Range 9 14]).match_line_offset 2 =
          true :=
  ⟨rfl, rfl, rfl⟩

/-- C2: the claim fails on the code (code bug).  `file_status` increments
`line_no` before calling `match_line_offset(line_no)`, so it tests the
1-based line number against the 0-based spec: with spec
`Partial([Line(0)])` and a one-line file it reports `marked = 0, total =
1`, although offset 0 — the only line — matches. -/
theorem c2_file_status_off_by_one :
    file_status (.Partial [SpecType.Line 0]) 1 = (0, 1) ∧
      (FileMarkSpec.Partial [SpecType.Line 0]).match_line_offset 0 = true :=
  ⟨rfl, rfl⟩

/-- C3 counterexample: the spec `Partial([Range(5,6)])` is
non-overlapping and offset 5 is covered by exactly one interval, yet
after `remove(5)` the interval has become `Line(5)` and `matches(5)` is
still true. -/
theorem c3_counterexample :
    [SpecType.Range 5 6].countP (fun s => s.covers 5) = 1 ∧
      (FileMarkSpec.Partial [SpecType.Range 5 6]).remove 5 =
        .Partial [SpecType.Line 5] ∧
        ((FileMarkSpec.Partial [SpecType.Range 5 6]).remove
              5).match_line_offset 5 = true :=
  ⟨by decide, rfl, rfl⟩

/-- C3 (amended): if an offset is covered by exactly one interval of a
`Partial` spec and that interval is not a width-one `Range` (the
`r - l == 1` case, which `remove` converts to a still-matching `Line`),
then after `remove(o)` the query `matches(o)` is false. -/
theorem c3_remove_unique_cover (specs : List SpecType) (o : Nat)
    (h1 : specs.countP (fun s => s.covers o) = 1)
    (h2 : specs.all (fun s => !unitRangeAt s o) = true) :
    ((FileMarkSpec.Partial specs).remove o).match_line_offset o = false := by
  have h2x : ∀ s ∈ specs, unitRangeAt s o = false := by
    intro s hs
    have := List.all_eq_true.mp h2 s hs
    simpa using this
  exact removeAux_covers_false specs o h1 h2x

/-- C3 witness: removing offset 3 from `Partial([Line 3])` leaves nothing
matching 3. -/
theorem c3_witness :
    [SpecType.Line 3].countP (fun s => s.covers 3) = 1 ∧
      [SpecType.Line 3].all (fun s => !unitRangeAt s 3) = true ∧
        ((FileMarkSpec.Partial [SpecType.Line 3]).remove
              3).match_line_offset 3 = false :=
  ⟨by decide, by decide,
    c3_remove_unique_cover [SpecType.Line 3] 3 (by decide) (by decide)⟩

/-- C4 counterexample: after `remove(5)` on `All`, offset 65535 — which
lies in the claimed domain `[0, 65535]` and differs from 5 — does not
match: the complement ranges are half-open, so `Range(6, 65535)` stops at
65534. -/
theorem c4_counterexample :
    FileMarkSpec.All.remove 5 =
        .Partial [SpecType.Range 0 5, SpecType.Range 6 u16Max] ∧
      (FileMarkSpec.All.remove 5).match_line_offset 65535 = false :=
  ⟨rfl, rfl⟩

/-- C4 (amended): for every offset `o < 65535`, `remove(o)` on `All`
produces exactly `Partial([Range(0,o), Range(o+1,65535)])`; afterwards
`matches(o)` is false and `matches(x)` is true for every other
`x < 65535` — offset 65535 itself is never covered, and `remove(65535)`
overflows `offset + 1` in u16. -/
theorem c4_remove_all (o : Nat) (h : o < u16Max) :
    FileMarkSpec.All.remove o =
        .Partial [SpecType.Range 0 o, SpecType.Range (o + 1) u16Max] ∧
      (FileMarkSpec.All.remove o).match_line_offset o = false ∧
        ∀ x, x < u16Max → x ≠ o →
          (FileMarkSpec.All.remove o).match_line_offset x = true := by
  have hu : o < 65535 := h
  have hmod : (o + 1) % 65536 = o + 1 := Nat.mod_eq_of_lt (by omega)
  refine ⟨by simp only [FileMarkSpec.remove, hmod], ?_, ?_⟩
  · simp only [FileMarkSpec.remove, hmod, FileMarkSpec.match_line_offset,
      covSpec, List.any_cons, List.any_nil, SpecType.covers,
      Bool.or_false, Bool.or_eq_false_iff, Bool.and_eq_false_iff,
      decide_eq_false_iff_not]
    omega
  · intro x hx hne
    have hx' : x < 65535 := hx
    simp only [FileMarkSpec.remove, hmod, FileMarkSpec.match_line_offset,
      covSpec, List.any_cons, List.any_nil, SpecType.covers,
      Bool.or_false, Bool.or_eq_true, Bool.and_eq_true,
      decide_eq_true_eq]
    simp only [u16Max]
    omega

/-- C4 witness: the amended statement at `o = 5`. -/
theorem c4_witness :
    5 < u16Max ∧
      (FileMarkSpec.All.remove 5 =
          .Partial [SpecType.Range 0 5, SpecType.Range 6 u16Max] ∧
        (FileMarkSpec.All.remove 5).match_line_offset 5 = false ∧
          ∀ x, x < u16Max → x ≠ 5 →
            (FileMarkSpec.All.remove 5).match_line_offset x = true) :=
  ⟨by decide, c4_remove_all 5 (by decide)⟩

/-- C5 counterexample: `[Range(65533, 65535)]` is canonical (a fixed
point of `rebuild_partial_specs`), covers offset 65534, and is written as
`"65534-65535"` because `saturating_add` pins the upper bound at 65535;
re-parsing gives `Range(65533, 65534)`, which no longer covers 65534 —
the round trip is not coverage-preserving. -/
theorem c5_counterexample :
    rebuild_partial_specs [SpecType.Range 65533 u16Max] =
        some [SpecType.Range 65533 u16Max] ∧
      parse_spec_file
            (write_spec_file (.Partial [SpecType.Range 65533 u16Max])) =
          .ok (.Partial [SpecType.Range 65533 65534]) ∧
        (FileMarkSpec.Partial
              [SpecType.Range 65533 u16Max]).match_line_offset 65534 =
            true ∧
          (FileMarkSpec.Partial
                [SpecType.Range 65533 65534]).match_line_offset 65534 =
            false := by
  refine ⟨?_, rfl, rfl, rfl⟩
  have hm : markAll [SpecType.Range 65533 u16Max] (fun _ => false) =
      some (fun x =>
        if decide (65533 ≤ x) && decide (x < u16Max) then true
        else false) := rfl
  have h0 : runScan
      (fun x => if decide (65533 ≤ x) && decide (x < u16Max) then true
        else false) 65533 = ([], none) := by
    refine runScan_ext_false (runScan_zero _) 65533 (Nat.zero_le _) ?_
    intro x _ hx2
    have hlt : ¬(65533 ≤ x) := by omega
    simp [hlt]
  have h1 : runScan
      (fun x => if decide (65533 ≤ x) && decide (x < u16Max) then true
        else false) (65533 + 1) = ([], some 65533) :=
    runScan_step_none_true h0 rfl
  have h2 : runScan
      (fun x => if decide (65533 ≤ x) && decide (x < u16Max) then true
        else false) (65533 + 1 + 1) = ([], some 65533) :=
    runScan_step_some_true h1 rfl
  have hn : u16Max = 65533 + 1 + 1 := rfl
  have h3 : runScan
      (fun x => if decide (65533 ≤ x) && decide (x < u16Max) then true
        else false) u16Max = ([], some 65533) := by
    rw [hn]
    exact h2
  rw [rebuild_eval hm, h3]
  rfl

/-- C5 (amended): for every canonical `Partial` spec — an output of
`rebuild_partial_specs` — that does not cover offset 65534 (equivalently,
whose final run does not reach the end of the domain), writing and
re-parsing reproduces the very same interval list, hence the same
covered set; when the spec does cover 65534, the saturating write of the
bound 65535 collapses the round trip onto `Range(l, 65534)` and exactly
offset 65534 is lost. -/
theorem c5_roundtrip (specs0 specs : List SpecType)
    (hc : rebuild_partial_specs specs0 = some specs)
    (hnc : (FileMarkSpec.Partial specs).match_line_offset 65534 = false) :
    parse_spec_file (write_spec_file (.Partial specs)) =
      .ok (.Partial specs) := by
  have hnc2 : covSpec specs (u16Max - 1) = false := hnc
  have hwb := rebuild_strict hc hnc2
  have hnl : ∀ l ∈ specs.map writeLine, ∀ c ∈ l, c ≠ '\n' := by
    intro l hl c hcm
    rcases List.mem_map.mp hl with ⟨s, _, rfl⟩
    exact writeLine_no_newline c hcm
  unfold parse_spec_file write_spec_file
  show parse_lines [] []
      (splitLines ((specs.map (fun s => writeLine s ++ ['\n'])).flatten)) =
    Except.ok (FileMarkSpec.Partial specs)
  rw [show specs.map (fun s => writeLine s ++ ['\n']) =
      (specs.map writeLine).map (fun l => l ++ ['\n']) by
    rw [List.map_map]; rfl]
  rw [splitLines_flatten (specs.map writeLine) hnl]
  rw [show (specs.map writeLine).map (fun l => l ++ ['\n']) =
      specs.map (fun s => writeLine s ++ ['\n']) by
    rw [List.map_map]; rfl]
  rw [parse_lines_written specs [] hwb]
  rfl

/-- C5 witness: the amended round trip at the canonical spec
`[Line 0]`. -/
theorem c5_witness :
    rebuild_partial_specs [SpecType.Line 0] = some [SpecType.Line 0] ∧
      (FileMarkSpec.Partial [SpecType.Line 0]).match_line_offset 65534 =
          false ∧
        parse_spec_file (write_spec_file (.Partial [SpecType.Line 0])) =
          .ok (.Partial [SpecType.Line 0]) :=
  ⟨rebuild_singleton_line0, rfl,
    c5_roundtrip [SpecType.Line 0] [SpecType.Line 0]
      rebuild_singleton_line0 rfl⟩

/-- C6 counterexample: the presence table has `u16::MAX = 65535` entries,
indices 0 through 65534, so marking `Line(65535)` — an interval inside
the domain `[0, 65535]` the claim quotes — indexes out of bounds and
`optimize` panics (modelled as `none`) instead of completing. -/
theorem c6_counterexample :
    rebuild_partial_specs [SpecType.Line u16Max] = none := rfl

/-- C6 (amended): the presence table covers `[0, 65535)`, not
`[0, 65535]`.  For every `Partial` spec whose `Line` entries are strictly
below 65535 and whose `Range`s do not reach past 65535 (every u16 range
qualifies), `optimize` completes without out-of-bounds access and
produces an interval list covering exactly the same offsets over the
table's domain. -/
theorem c6_optimize_in_table (specs : List SpecType)
    (hok : specs.all specOkB = true) :
    ∃ out, rebuild_partial_specs specs = some out ∧
      ∀ x, x < u16Max → covSpec out x = covSpec specs x :=
  rebuild_isSome (fun s hs => List.all_eq_true.mp hok s hs)

/-- C6 witness: the amended statement on `[Line 0, Range 2 65535]`. -/
theorem c6_witness :
    [SpecType.Line 0, SpecType.Range 2 u16Max].all specOkB = true ∧
      ∃ out,
        rebuild_partial_specs [SpecType.Line 0, SpecType.Range 2 u16Max] =
            some out ∧
          ∀ x, x < u16Max → covSpec out x =
            covSpec [SpecType.Line 0, SpecType.Range 2 u16Max] x :=
  ⟨by decide, c6_optimize_in_table _ (by decide)⟩

/-- C7: the claim fails on the code (code bug).  A magic line parsed on a
clean buffer does return `All` and stops, but `"regardless of what blank
or comment lines preceded it"` is false: after a comment line the buffer
is not cleared, the magic line is appended to the buffered comment, the
combined line starts with `#`, and the file parses to `Partial([])`. -/
theorem c7_magic_after_comment :
    parse_spec_file ("-*- all -*-\n".toList) = .ok .All ∧
      parse_spec_file ("# note\n-*- all -*-\n".toList) =
        .ok (.Partial []) :=
  ⟨rfl, rfl⟩

/-- C8: `optimize` is idempotent — a `Partial` spec on which `optimize`
succeeds rebuilds to an interval list that rebuilds to itself: the
canonical list covers exactly what the presence table held, so a second
scan reproduces it. -/
theorem c8_optimize_idem (specs out : List SpecType)
    (h : (FileMarkSpec.Partial specs).optimize = some (.Partial out)) :
    (FileMarkSpec.Partial out).optimize = some (.Partial out) := by
  have h2 : Option.map FileMarkSpec.Partial (rebuild_partial_specs specs) =
      some (FileMarkSpec.Partial out) := h
  show Option.map FileMarkSpec.Partial (rebuild_partial_specs out) =
    some (FileMarkSpec.Partial out)
  cases hre : rebuild_partial_specs specs with
  | none => rw [hre] at h2; cases h2
  | some o =>
    rw [hre] at h2
    have ho : o = out := by simpa using h2
    subst ho
    rw [rebuild_idem hre]
    rfl

/-- C8 witness: `optimize` on `Partial([Line 0])` succeeds with the same
list, and applying the theorem shows the result is again a fixed
point. -/
theorem c8_witness :
    (FileMarkSpec.Partial [SpecType.Line 0]).optimize =
      some (.Partial [SpecType.Line 0]) :=
  c8_optimize_idem [SpecType.Line 0] [SpecType.Line 0]
    (by
      simp only [FileMarkSpec.optimize]
      rw [rebuild_singleton_line0]
      rfl)

/-- C9 counterexample: parsing the line `"10-5"` produces
`Range(9, 4)` with `l > r` — the parser never checks the order of the
two numbers — so specs produced by parsing do not satisfy the claimed
invariant. -/
theorem c9_counterexample :
    parse_spec_file ("10-5\n".toList) =
        .ok (.Partial [SpecType.Range 9 4]) ∧
      rangeWF (SpecType.Range 9 4) = false :=
  ⟨rfl, rfl⟩

/-- C9 (amended): every `Range(l, r)` in a spec produced from a
well-formed spec by any sequence of `add`, `remove`, and `optimize`
operations satisfies `l ≤ r`; parsing, however, does not enforce the
invariant (see the counterexample). -/
theorem c9_ops_preserve_wf (ops : List MarkOp) (S S2 : FileMarkSpec)
    (h1 : specWF S = true) (h2 : applyOps S ops = some S2) :
    specWF S2 = true :=
  applyOps_wf ops S S2 h1 h2

/-- C9 witness: an `add` followed by a splitting `remove` on
`Partial([Range 0 3])` keeps every range well-formed. -/
theorem c9_witness :
    specWF (.Partial [SpecType.Range 0 3]) = true ∧
      applyOps (.Partial [SpecType.Range 0 3])
          [.add 2, .remove 1] =
        some (.Partial
          [SpecType.Range 0 1, SpecType.Range 2 3, SpecType.Line 2]) ∧
        specWF (.Partial
            [SpecType.Range 0 1, SpecType.Range 2 3, SpecType.Line 2]) =
          true :=
  ⟨by decide, rfl,
    c9_ops_preserve_wf [.add 2, .remove 1] (.Partial [SpecType.Range 0 3])
      (.Partial [SpecType.Range 0 1, SpecType.Range 2 3, SpecType.Line 2])
      (by decide) rfl⟩

/-- C10 counterexample: the line `"abc12"` is not blank, not a comment,
not magic, and not of the form `<N>` or `<N>-<M>`, yet the end-anchored
`NUM_REGEX` matches its trailing digits and parsing succeeds with
`Line(11)` instead of failing. -/
theorem c10_counterexample :
    parse_spec_file ("abc12\n".toList) =
      .ok (.Partial [SpecType.Line 11]) := rfl

/-- C10 (amended): the regexes are anchored only at the end of the line,
so a fatal error is decided by the line's tail, not its whole shape: for
a spec file none of whose lines is blank, a comment, or magic, if some
line's content — after stripping trailing whitespace — does not end in a
digit, the whole parse aborts with an error and no partial result. -/
theorem c10_parse_fails (content : List Char) (acc : List SpecType)
    (h1 : (splitLines content).all goodLineB = true)
    (h2 : (splitLines content).any failLineB = true) :
    parse_lines [] acc (splitLines content) = .error () :=
  parse_lines_fail (splitLines content) acc
    (fun l hl => List.all_eq_true.mp h1 l hl) h2

/-- C10 witness: the amended statement on the one-line file
`"hello\n"`. -/
theorem c10_witness :
    (splitLines ("hello\n".toList)).all goodLineB = true ∧
      (splitLines ("hello\n".toList)).any failLineB = true ∧
        parse_lines [] [] (splitLines ("hello\n".toList)) = .error () :=
  ⟨by decide, by decide, c10_parse_fails ("hello\n".toList) [] (by decide)
    (by decide)⟩

end Marks
